import Mathlib

/-!
Verification of the mdbook frontmatter preprocessor core
(`src/lib.rs` of mdbook-frontmatter).

The development shallowly embeds the event-stream scanner, the
frontmatter line parser, the HTML table renderer and the linkifier.
Markdown events (pulldown-cmark `Event`) are modelled by an inductive
type with the variants the code inspects or produces: `Text`, `Html`,
`Start(Tag::HtmlBlock)`, `End(TagEnd::HtmlBlock)`, and a catch-all
`other` for every remaining variant (SoftBreak and the rest), which the
code only forwards or drops.
-/

/-- Markdown event, mirroring the pulldown-cmark events the code
touches.  `other k` stands for any event variant that is neither a text
run, nor raw HTML, nor an HtmlBlock boundary; the scanner never inspects
its payload, so a numeric tag suffices to distinguish such events. -/
inductive Event where
  | text (s : String)
  | html (s : String)
  | startHtmlBlock
  | endHtmlBlock
  | other (k : Nat)
deriving DecidableEq, Repr

/-- The frontmatter delimiter literal of lib.rs: `CowStr::Borrowed("+++")`. -/
def frontmatter_delimiter : String := "+++"

/-! ## Linkifier (lib.rs `linkify_text`)

The Rust code runs two `Regex::replace_all` passes: first the GitHub
handle pattern, then the email pattern over the result of the first pass.
`replace_all` replaces the leftmost, non-overlapping matches, scanning
left to right, and never rescans replacement text within a pass.  The
character classes of both patterns exclude the literal that must follow
them, so greedy matching needs no backtracking; the passes below
implement exactly that semantics with explicit character scanning. -/

/-- Character class of the handle group: the regex class a-zA-Z0-9_. -/
def isHandleChar (c : Char) : Bool :=
  ('a' ≤ c && c ≤ 'z') || ('A' ≤ c && c ≤ 'Z') || ('0' ≤ c && c ≤ '9') || c = '_'

/-- Character class of the email local part: a-zA-Z0-9_ plus dot, plus
sign and hyphen. -/
def isLocalChar (c : Char) : Bool :=
  isHandleChar c || c = '.' || c = '+' || c = '-'

/-- Character class of the first domain label: a-zA-Z0-9 and hyphen. -/
def isDomainChar (c : Char) : Bool :=
  ('a' ≤ c && c ≤ 'z') || ('A' ≤ c && c ≤ 'Z') || ('0' ≤ c && c ≤ '9') || c = '-'

/-- Character class of the domain remainder: a-zA-Z0-9, hyphen and dot. -/
def isDomainDotChar (c : Char) : Bool :=
  isDomainChar c || c = '.'

/-- Replacement text of the GitHub pass, from the Rust format string
producing an anchor to https://github.com/ followed by the handle. -/
def githubLink (handle : List Char) : List Char :=
  ("(<a href=\"https://github.com/").toList ++ handle
    ++ ("\">@").toList ++ handle ++ ("</a>)").toList

/-- Replacement text of the email pass, from the Rust format string
producing a mailto anchor. -/
def emailLink (addr : List Char) : List Char :=
  ("(<a href=\"mailto:").toList ++ addr ++ ("\">").toList ++ addr ++ ("</a>)").toList

/-- Attempted match of the email pattern body right after an opening
parenthesis: a nonempty local part, an at sign, a nonempty first domain
label, a dot, a nonempty domain remainder, and a closing parenthesis.
Returns the captured address and the input remaining after the match. -/
def emailMatch (cs : List Char) : Option (List Char × List Char) :=
  match cs.takeWhile isLocalChar, cs.dropWhile isLocalChar with
  | lpart@(_ :: _), a :: cs2 =>
    if a = '@' then
      match cs2.takeWhile isDomainChar, cs2.dropWhile isDomainChar with
      | d1@(_ :: _), dot :: cs3 =>
        if dot = '.' then
          match cs3.takeWhile isDomainDotChar, cs3.dropWhile isDomainDotChar with
          | d2@(_ :: _), rp :: cs4 =>
            if rp = ')' then some (lpart ++ '@' :: d1 ++ '.' :: d2, cs4) else none
          | _, _ => none
        else none
      | _, _ => none
    else none
  | _, _ => none

/-- Attempted match of the GitHub pattern body right after an opening
parenthesis: an at sign, a nonempty handle, a closing parenthesis.
Returns the captured handle and the input remaining after the match. -/
def githubMatch (cs : List Char) : Option (List Char × List Char) :=
  match cs with
  | a :: cs2 =>
    if a = '@' then
      match cs2.takeWhile isHandleChar, cs2.dropWhile isHandleChar with
      | handle@(_ :: _), rp :: cs3 =>
        if rp = ')' then some (handle, cs3) else none
      | _, _ => none
    else none
  | [] => none

/-- One replace-all scan of the GitHub handle pattern.  The fuel
argument only justifies termination; the wrapper passes the input
length, which every step strictly exceeds the consumed amount of, so
fuel never runs out on a wrapper call. -/
def githubPass : Nat → List Char → List Char
  | 0, cs => cs
  | _ + 1, [] => []
  | fuel + 1, c :: cs =>
    if c = '(' then
      match githubMatch cs with
      | some (handle, rest) => githubLink handle ++ githubPass fuel rest
      | none => c :: githubPass fuel cs
    else c :: githubPass fuel cs

/-- One replace-all scan of the email pattern, as `githubPass`. -/
def emailPass : Nat → List Char → List Char
  | 0, cs => cs
  | _ + 1, [] => []
  | fuel + 1, c :: cs =>
    if c = '(' then
      match emailMatch cs with
      | some (addr, rest) => emailLink addr ++ emailPass fuel rest
      | none => c :: emailPass fuel cs
    else c :: emailPass fuel cs

/-- The first substitution pass of lib.rs `linkify_text`:
`github_regex.replace_all` with the anchor replacement. -/
def githubReplaceAll (text : String) : String :=
  String.mk (githubPass text.toList.length text.toList)

/-- The second substitution pass of lib.rs `linkify_text`:
`email_regex.replace_all` with the mailto replacement. -/
def emailReplaceAll (text : String) : String :=
  String.mk (emailPass text.toList.length text.toList)

/-- lib.rs `linkify_text`: the GitHub pass, then the email pass over its
result. -/
def linkify_text (text : String) : String :=
  emailReplaceAll (githubReplaceAll text)

/-! ## Frontmatter parser (lib.rs `parse_frontmatter`) -/

/-- Split of a character list at its first colon, when one occurs. -/
def splitFirstColon : List Char → Option (List Char × List Char)
  | [] => none
  | c :: rest =>
    if c = ':' then some ([], rest)
    else
      match splitFirstColon rest with
      | some (b, a) => some (c :: b, a)
      | none => none

/-- Rust `line.splitn(2, ':')`: one part when the line holds no colon,
otherwise the part before the first colon and everything after it. -/
def splitn_two_colon (line : List Char) : List (List Char) :=
  match splitFirstColon line with
  | some (b, a) => [b, a]
  | none => [line]

/-- Rust str::trim on the character list: strip leading and trailing
whitespace. -/
def trimChars (cs : List Char) : List Char :=
  ((cs.dropWhile Char.isWhitespace).reverse.dropWhile Char.isWhitespace).reverse

/-- Rust str::trim on strings. -/
def trimString (s : String) : String :=
  String.mk (trimChars s.toList)

/-- Per-line body of the `filter_map` in lib.rs `parse_frontmatter`:
exactly two split parts yield an entry with both parts trimmed, anything
else yields no entry. -/
def parseEntry (line : String) : Option (String × String) :=
  match splitn_two_colon line.toList with
  | [b, a] => some (trimString (String.mk b), trimString (String.mk a))
  | _ => none

/-- lib.rs `parse_frontmatter`: ordered key/value extraction over the
captured lines. -/
def parse_frontmatter (lines : List String) : List (String × String) :=
  lines.filterMap parseEntry

/-! ## Table renderer (lib.rs `create_html_table_events`) -/

/-- lib.rs `create_html_table_events`: HtmlBlock start, a table-opening
raw HTML event, one raw HTML row per entry (the value linkified exactly
when the key is "author"), a table-closing raw HTML event, HtmlBlock
end.  The asymmetric th/td tag pairing is copied verbatim from the
source format string. -/
def create_html_table_events (frontmatter : List (String × String)) : List Event :=
  [Event.startHtmlBlock, Event.html "<table class=\"preamble\">\n"]
    ++ frontmatter.map (fun kv =>
        Event.html ("<tr><th>" ++ kv.1 ++ "</td><td>"
          ++ (if kv.1 = "author" then linkify_text kv.2 else kv.2) ++ "</td></tr>\n"))
    ++ [Event.html "</table>\n", Event.endHtmlBlock]

/-! ## Stream scanner (the event loop of lib.rs `run`) -/

/-- Scanner state of one unit: the capture flag, the captured raw lines
(`frontmatter_collection`) and the output events (`formatted_content`). -/
structure ScanState where
  capture : Bool
  fm : List String
  out : List Event
deriving DecidableEq, Repr

/-- One iteration of the event loop in lib.rs `run`.  The four match
arms of the source, in order: a text event equal to the delimiter closes
or opens capture (on close the captured lines are parsed, rendered and
appended, and the collection cleared; the delimiter itself is never
appended); a text event while capturing is buffered; any event while not
capturing is forwarded; anything else is dropped. -/
def scanStep (s : ScanState) (e : Event) : ScanState :=
  match e with
  | Event.text t =>
    if t = frontmatter_delimiter then
      if s.capture then
        ⟨false, [], s.out ++ create_html_table_events (parse_frontmatter s.fm)⟩
      else
        ⟨true, s.fm, s.out⟩
    else if s.capture then ⟨s.capture, s.fm ++ [t], s.out⟩
    else ⟨s.capture, s.fm, s.out ++ [Event.text t]⟩
  | e => if s.capture then s else ⟨s.capture, s.fm, s.out ++ [e]⟩

/-- The whole event loop of lib.rs `run` on one content unit: fold the
step over the unit events starting from a cleared state and keep the
formatted content; a collection still being captured at the end of the
unit is discarded with the state. -/
def run_unit (events : List Event) : List Event :=
  (events.foldl scanStep ⟨false, [], []⟩).out

/-- Text content of a text event, nothing for any other event. -/
def textContent : Event → Option String
  | Event.text s => some s
  | _ => none

/-- The raw lines the scanner would buffer from an event list while
capturing: the contents of its text events, in order. -/
def capturedTexts (evs : List Event) : List String :=
  evs.filterMap textContent

/-- No event of the list is a text event equal to the delimiter. -/
def noDelim (evs : List Event) : Prop :=
  Event.text frontmatter_delimiter ∉ evs

instance (evs : List Event) : Decidable (noDelim evs) := by
  unfold noDelim; infer_instance

/-- Number of delimiter text events in the list. -/
def countD : List Event → Nat
  | [] => 0
  | e :: rest => (if e = Event.text frontmatter_delimiter then 1 else 0) + countD rest

/-! ## Lemmas about the line split -/

/-- A colon-free character list admits no split. -/
theorem splitFirstColon_of_not_mem (l : List Char) (h : ':' ∉ l) :
    splitFirstColon l = none := by
  induction l with
  | nil => rfl
  | cons c rest ih =>
    have h1 : ¬(':' = c ∨ ':' ∈ rest) := by simpa [List.mem_cons] using h
    push_neg at h1
    have hc : c ≠ ':' := Ne.symm h1.1
    simp [splitFirstColon, hc, ih h1.2]

/-- Splitting at the first colon returns the colon-free head and the
whole remainder, colons included. -/
theorem splitFirstColon_append (b a : List Char) (h : ':' ∉ b) :
    splitFirstColon (b ++ ':' :: a) = some (b, a) := by
  induction b with
  | nil => simp [splitFirstColon]
  | cons c rest ih =>
    have h1 : ¬(':' = c ∨ ':' ∈ rest) := by simpa [List.mem_cons] using h
    push_neg at h1
    have hc : c ≠ ':' := Ne.symm h1.1
    simp [splitFirstColon, hc, ih h1.2]

/-- A line whose first colon separates head `b` from remainder `a`
yields the entry with both parts trimmed. -/
theorem parseEntry_with_colon (b a : List Char) (h : ':' ∉ b) :
    parseEntry (String.mk (b ++ ':' :: a))
      = some (trimString (String.mk b), trimString (String.mk a)) := by
  have ht : (String.mk (b ++ ':' :: a)).toList = b ++ ':' :: a := rfl
  simp [parseEntry, splitn_two_colon, ht, splitFirstColon_append b a h]

/-- A colon-free line yields no entry. -/
theorem parseEntry_no_colon (l : List Char) (h : ':' ∉ l) :
    parseEntry (String.mk l) = none := by
  have ht : (String.mk l).toList = l := rfl
  simp [parseEntry, splitn_two_colon, ht, splitFirstColon_of_not_mem l h]

/-! ## Lemmas about the scanner fold -/

/-- The step only appends to the output; the appended part and the other
state components do not depend on the output already accumulated. -/
theorem scanStep_shift (c : Bool) (fm : List String) (out : List Event) (e : Event) :
    scanStep ⟨c, fm, out⟩ e =
      ⟨(scanStep ⟨c, fm, []⟩ e).capture, (scanStep ⟨c, fm, []⟩ e).fm,
        out ++ (scanStep ⟨c, fm, []⟩ e).out⟩ := by
  cases e with
  | text t => by_cases h1 : t = frontmatter_delimiter <;> cases c <;> simp [scanStep, h1]
  | html s => cases c <;> simp [scanStep]
  | startHtmlBlock => cases c <;> simp [scanStep]
  | endHtmlBlock => cases c <;> simp [scanStep]
  | other k => cases c <;> simp [scanStep]

/-- The fold only appends to the output, independently of the output
already accumulated. -/
theorem foldl_scanStep_shift (evs : List Event) :
    ∀ (c : Bool) (fm : List String) (out : List Event),
    List.foldl scanStep ⟨c, fm, out⟩ evs =
      ⟨(List.foldl scanStep ⟨c, fm, []⟩ evs).capture,
       (List.foldl scanStep ⟨c, fm, []⟩ evs).fm,
       out ++ (List.foldl scanStep ⟨c, fm, []⟩ evs).out⟩ := by
  induction evs with
  | nil => intro c fm out; simp
  | cons e evs ih =>
    intro c fm out
    rcases h : scanStep ⟨c, fm, []⟩ e with ⟨c1, f1, o1⟩
    have hstep : scanStep ⟨c, fm, out⟩ e = ⟨c1, f1, out ++ o1⟩ := by
      rw [scanStep_shift, h]
    simp only [List.foldl_cons, hstep, h]
    rw [ih c1 f1 (out ++ o1), ih c1 f1 o1]
    simp

/-- A non-delimiter event is forwarded unchanged while not capturing. -/
theorem scanStep_pass (fm : List String) (out : List Event) (e : Event)
    (he : e ≠ Event.text frontmatter_delimiter) :
    scanStep ⟨false, fm, out⟩ e = ⟨false, fm, out ++ [e]⟩ := by
  cases e with
  | text t =>
    have ht : t ≠ frontmatter_delimiter := by
      intro hh; exact he (by rw [hh])
    simp [scanStep, ht]
  | html s => simp [scanStep]
  | startHtmlBlock => simp [scanStep]
  | endHtmlBlock => simp [scanStep]
  | other k => simp [scanStep]

/-- While capturing, a non-delimiter event contributes exactly its text
content to the collection and nothing to the output. -/
theorem scanStep_capturing (fm : List String) (out : List Event) (e : Event)
    (he : e ≠ Event.text frontmatter_delimiter) :
    scanStep ⟨true, fm, out⟩ e = ⟨true, fm ++ capturedTexts [e], out⟩ := by
  cases e with
  | text t =>
    have ht : t ≠ frontmatter_delimiter := by
      intro hh; exact he (by rw [hh])
    simp [scanStep, ht, capturedTexts, textContent]
  | html s => simp [scanStep, capturedTexts, textContent]
  | startHtmlBlock => simp [scanStep, capturedTexts, textContent]
  | endHtmlBlock => simp [scanStep, capturedTexts, textContent]
  | other k => simp [scanStep, capturedTexts, textContent]

/-- A delimiter seen while not capturing opens capture and emits
nothing. -/
theorem scanStep_open (fm : List String) (out : List Event) :
    scanStep ⟨false, fm, out⟩ (Event.text frontmatter_delimiter)
      = ⟨true, fm, out⟩ := by
  simp [scanStep]

/-- A delimiter seen while capturing closes capture, renders the
collected lines and appends the table, clearing the collection. -/
theorem scanStep_close (fm : List String) (out : List Event) :
    scanStep ⟨true, fm, out⟩ (Event.text frontmatter_delimiter)
      = ⟨false, [], out ++ create_html_table_events (parse_frontmatter fm)⟩ := by
  simp [scanStep]

/-- Folding a delimiter-free list while not capturing forwards every
event in order. -/
theorem foldl_pass (evs : List Event) :
    ∀ (fm : List String) (out : List Event), noDelim evs →
    List.foldl scanStep ⟨false, fm, out⟩ evs = ⟨false, fm, out ++ evs⟩ := by
  induction evs with
  | nil => intro fm out _; simp
  | cons e evs ih =>
    intro fm out h
    have h1 : ¬(Event.text frontmatter_delimiter = e
        ∨ Event.text frontmatter_delimiter ∈ evs) := by
      simpa [noDelim, List.mem_cons] using h
    push_neg at h1
    have he : e ≠ Event.text frontmatter_delimiter := Ne.symm h1.1
    simp only [List.foldl_cons, scanStep_pass fm out e he]
    rw [ih fm (out ++ [e]) h1.2]
    simp

/-- Folding a delimiter-free list while capturing buffers exactly the
text contents, in order, and emits nothing. -/
theorem foldl_capturing (evs : List Event) :
    ∀ (fm : List String) (out : List Event), noDelim evs →
    List.foldl scanStep ⟨true, fm, out⟩ evs
      = ⟨true, fm ++ capturedTexts evs, out⟩ := by
  induction evs with
  | nil => intro fm out _; simp [capturedTexts]
  | cons e evs ih =>
    intro fm out h
    have h1 : ¬(Event.text frontmatter_delimiter = e
        ∨ Event.text frontmatter_delimiter ∈ evs) := by
      simpa [noDelim, List.mem_cons] using h
    push_neg at h1
    have he : e ≠ Event.text frontmatter_delimiter := Ne.symm h1.1
    simp only [List.foldl_cons, scanStep_capturing fm out e he]
    rw [ih (fm ++ capturedTexts [e]) out h1.2]
    cases e <;> simp [capturedTexts, textContent]

/-- A well-formed region between a delimiter-free prefix and an
arbitrary remainder: the scanner forwards the prefix, replaces the
region by the rendered table of its text lines, and continues on the
remainder from a cleared state. -/
theorem run_unit_region (pre body post : List Event)
    (hpre : noDelim pre) (hbody : noDelim body) :
    run_unit (pre ++ [Event.text frontmatter_delimiter] ++ body
        ++ [Event.text frontmatter_delimiter] ++ post)
      = pre ++ create_html_table_events (parse_frontmatter (capturedTexts body))
        ++ run_unit post := by
  unfold run_unit
  simp only [List.foldl_append, List.foldl_cons, List.foldl_nil]
  rw [foldl_pass pre [] [] hpre]
  simp only [List.nil_append]
  rw [scanStep_open, foldl_capturing body [] pre hbody]
  simp only [List.nil_append]
  rw [scanStep_close]
  rw [foldl_scanStep_shift post false []
      (pre ++ create_html_table_events (parse_frontmatter (capturedTexts body)))]

/-- No event of a rendered table is a text event. -/
theorem table_no_text (fm : List (String × String)) (s : String) :
    Event.text s ∉ create_html_table_events fm := by
  simp [create_html_table_events]

/-- The step never appends a delimiter text event to the output. -/
theorem scanStep_no_delim_out (s : ScanState) (e : Event)
    (h : Event.text frontmatter_delimiter ∉ s.out) :
    Event.text frontmatter_delimiter ∉ (scanStep s e).out := by
  rcases s with ⟨c, fm, out⟩
  cases e with
  | text t =>
    by_cases h1 : t = frontmatter_delimiter
    · cases c
      · simpa [scanStep, h1] using h
      · simp only [scanStep, h1, if_pos rfl]
        intro hm
        rcases List.mem_append.mp hm with hm1 | hm2
        · exact h hm1
        · exact table_no_text _ _ hm2
    · cases c
      · simp only [scanStep, if_neg h1]
        intro hm
        rcases List.mem_append.mp hm with hm1 | hm2
        · exact h hm1
        · have h2 : frontmatter_delimiter = t := by
            injection List.mem_singleton.mp hm2
          exact h1 h2.symm
      · simpa [scanStep, h1] using h
  | html s2 =>
    cases c
    · simp only [scanStep]
      intro hm
      rcases List.mem_append.mp hm with hm1 | hm2
      · exact h hm1
      · simp at hm2
    · simpa [scanStep] using h
  | startHtmlBlock =>
    cases c
    · simp only [scanStep]
      intro hm
      rcases List.mem_append.mp hm with hm1 | hm2
      · exact h hm1
      · simp at hm2
    · simpa [scanStep] using h
  | endHtmlBlock =>
    cases c
    · simp only [scanStep]
      intro hm
      rcases List.mem_append.mp hm with hm1 | hm2
      · exact h hm1
      · simp at hm2
    · simpa [scanStep] using h
  | other k =>
    cases c
    · simp only [scanStep]
      intro hm
      rcases List.mem_append.mp hm with hm1 | hm2
      · exact h hm1
      · simp at hm2
    · simpa [scanStep] using h

/-- The fold never appends a delimiter text event to the output. -/
theorem foldl_no_delim_out (evs : List Event) :
    ∀ s : ScanState, Event.text frontmatter_delimiter ∉ s.out →
    Event.text frontmatter_delimiter ∉ (List.foldl scanStep s evs).out := by
  induction evs with
  | nil => intro s h; exact h
  | cons e evs ih =>
    intro s h
    simp only [List.foldl_cons]
    exact ih (scanStep s e) (scanStep_no_delim_out s e h)

/-- A non-delimiter event leaves the capture flag unchanged. -/
theorem scanStep_capture_eq (s : ScanState) (e : Event)
    (he : e ≠ Event.text frontmatter_delimiter) :
    (scanStep s e).capture = s.capture := by
  rcases s with ⟨c, fm, out⟩
  cases e with
  | text t =>
    have ht : t ≠ frontmatter_delimiter := by
      intro hh; exact he (by rw [hh])
    cases c <;> simp [scanStep, ht]
  | html s2 => cases c <;> simp [scanStep]
  | startHtmlBlock => cases c <;> simp [scanStep]
  | endHtmlBlock => cases c <;> simp [scanStep]
  | other k => cases c <;> simp [scanStep]

/-- A delimiter event toggles the capture flag. -/
theorem scanStep_capture_toggle (s : ScanState) :
    (scanStep s (Event.text frontmatter_delimiter)).capture = !s.capture := by
  rcases s with ⟨c, fm, out⟩
  cases c <;> simp [scanStep]

/-- Delimiter count distributes over append. -/
theorem countD_append (xs ys : List Event) :
    countD (xs ++ ys) = countD xs + countD ys := by
  induction xs with
  | nil => simp [countD]
  | cons x xs ih => simp [countD, ih]; omega

/-- The capture flag after the fold is the parity of the delimiter
count, offset by the starting flag. -/
theorem foldl_capture_parity (evs : List Event) :
    ∀ s : ScanState,
    ((List.foldl scanStep s evs).capture = true ↔
      (countD evs + (if s.capture = true then 1 else 0)) % 2 = 1) := by
  induction evs with
  | nil =>
    intro s
    cases hc : s.capture <;> simp [countD, hc]
  | cons e evs ih =>
    intro s
    simp only [List.foldl_cons]
    rw [ih (scanStep s e)]
    by_cases hd : e = Event.text frontmatter_delimiter
    · have ht : (scanStep s e).capture = !s.capture := by
        rw [hd]; exact scanStep_capture_toggle s
      have hcount : countD (e :: evs) = 1 + countD evs := by simp [countD, hd]
      rw [ht, hcount]
      cases hc : s.capture <;> simp <;> omega
    · have ht : (scanStep s e).capture = s.capture := scanStep_capture_eq s e hd
      have hcount : countD (e :: evs) = countD evs := by simp [countD, hd]
      rw [ht, hcount]

/-- Size measure of a scan state: output length plus buffered lines plus
one when capture is open. -/
def stateMeasure (s : ScanState) : Nat :=
  s.out.length + s.fm.length + (if s.capture = true then 1 else 0)

/-- Rendering adds four events around the rows. -/
theorem create_html_table_events_length (fm : List (String × String)) :
    (create_html_table_events fm).length = fm.length + 4 := by
  simp [create_html_table_events]

/-- Parsing yields at most one entry per line. -/
theorem parse_frontmatter_length_le (lines : List String) :
    (parse_frontmatter lines).length ≤ lines.length := by
  induction lines with
  | nil => simp [parse_frontmatter]
  | cons l ls ih =>
    simp only [parse_frontmatter, List.filterMap_cons] at ih ⊢
    cases parseEntry l <;> simp <;> omega

/-- Every step grows the state measure by at most one, plus two more on
a delimiter event. -/
theorem scanStep_measure (s : ScanState) (e : Event) :
    stateMeasure (scanStep s e)
      ≤ stateMeasure s + 1
        + 2 * (if e = Event.text frontmatter_delimiter then 1 else 0) := by
  rcases s with ⟨c, fm, out⟩
  cases e with
  | text t =>
    by_cases h1 : t = frontmatter_delimiter
    · cases c
      · simp [scanStep, stateMeasure, h1]
      · have hp := parse_frontmatter_length_le fm
        simp [scanStep, stateMeasure, h1, create_html_table_events_length]
        omega
    · cases c <;> simp [scanStep, stateMeasure, h1] <;> omega
  | html s2 => cases c <;> simp [scanStep, stateMeasure] <;> omega
  | startHtmlBlock => cases c <;> simp [scanStep, stateMeasure] <;> omega
  | endHtmlBlock => cases c <;> simp [scanStep, stateMeasure] <;> omega
  | other k => cases c <;> simp [scanStep, stateMeasure] <;> omega

/-- The fold grows the state measure by at most the number of events
plus two per delimiter event. -/
theorem foldl_measure (evs : List Event) :
    ∀ s : ScanState,
    stateMeasure (List.foldl scanStep s evs)
      ≤ stateMeasure s + evs.length + 2 * countD evs := by
  induction evs with
  | nil => intro s; simp [countD]
  | cons e evs ih =>
    intro s
    simp only [List.foldl_cons]
    have h1 := ih (scanStep s e)
    have h2 := scanStep_measure s e
    by_cases hd : e = Event.text frontmatter_delimiter
    · subst hd
      have hcount : countD (Event.text frontmatter_delimiter :: evs)
          = 1 + countD evs := by simp [countD]
      simp at h2
      simp only [List.length_cons]
      omega
    · have hcount : countD (e :: evs) = countD evs := by simp [countD, hd]
      simp only [if_neg hd] at h2
      simp only [List.length_cons, hcount]
      omega

/-! ## The claims -/

/-- C1: For every event sequence of one content unit, every
delimiter-bounded frontmatter region is replaced by its rendered table
while every event outside such regions is preserved unchanged and in
original order, and a text event equal to the delimiter literal is
never itself appended to the output. -/
theorem scanner_replaces_regions :
    (∀ pre body post : List Event, noDelim pre → noDelim body →
      run_unit (pre ++ [Event.text frontmatter_delimiter] ++ body
          ++ [Event.text frontmatter_delimiter] ++ post)
        = pre ++ create_html_table_events (parse_frontmatter (capturedTexts body))
          ++ run_unit post)
    ∧ (∀ evs : List Event, Event.text frontmatter_delimiter ∉ run_unit evs) := by
  constructor
  · exact run_unit_region
  · intro evs
    exact foldl_no_delim_out evs ⟨false, [], []⟩ (by simp)

/-- Witness for the region replacement at a concrete unit: a prefix
event, one key/value region and a trailing event. -/
theorem scanner_replaces_regions_check :
    noDelim [Event.other 7] ∧ noDelim [Event.text "a: b"] ∧
    run_unit ([Event.other 7] ++ [Event.text frontmatter_delimiter]
        ++ [Event.text "a: b"] ++ [Event.text frontmatter_delimiter]
        ++ [Event.html "x"])
      = [Event.other 7]
        ++ create_html_table_events
            (parse_frontmatter (capturedTexts [Event.text "a: b"]))
        ++ run_unit [Event.html "x"] :=
  ⟨by decide, by decide,
    scanner_replaces_regions.1 [Event.other 7] [Event.text "a: b"]
      [Event.html "x"] (by decide) (by decide)⟩

/-- C2: The parser splits each line at its first colon into at most two
parts; when two parts result it emits one entry with both parts trimmed
(further colons remain in the value), colon-free lines produce no entry
and no error, entry order equals source line order, and duplicate keys
stay separate entries, since extraction distributes over the line list. -/
theorem parse_frontmatter_line_behavior :
    (∀ b a : List Char, ':' ∉ b →
      parse_frontmatter [String.mk (b ++ ':' :: a)]
        = [(trimString (String.mk b), trimString (String.mk a))])
    ∧ (∀ l : List Char, ':' ∉ l → parse_frontmatter [String.mk l] = [])
    ∧ (∀ ls1 ls2 : List String,
        parse_frontmatter (ls1 ++ ls2)
          = parse_frontmatter ls1 ++ parse_frontmatter ls2) := by
  refine ⟨?_, ?_, ?_⟩
  · intro b a h
    simp [parse_frontmatter, parseEntry_with_colon b a h]
  · intro l h
    simp [parse_frontmatter, parseEntry_no_colon l h]
  · intro ls1 ls2
    simp [parse_frontmatter, List.filterMap_append]

/-- Witness for the line split at a concrete line with a second colon
inside the value. -/
theorem parse_frontmatter_line_behavior_check :
    (':' ∉ ['k', 'e', 'y']) ∧
    parse_frontmatter [String.mk (['k', 'e', 'y'] ++ ':' :: [' ', 'v', ':', 'w'])]
      = [(trimString (String.mk ['k', 'e', 'y']),
          trimString (String.mk [' ', 'v', ':', 'w']))] :=
  ⟨by decide,
    parse_frontmatter_line_behavior.1 ['k', 'e', 'y'] [' ', 'v', ':', 'w'] (by decide)⟩

/-- C3: The renderer emits exactly an HtmlBlock start event, one HTML
event opening the table, one HTML row event per entry in order with the
asymmetric th/td pairing and the value linkified exactly when the key
is the literal "author", then the closing HTML event and the HtmlBlock
end event. -/
theorem create_html_table_events_shape (entries : List (String × String)) :
    create_html_table_events entries
      = [Event.startHtmlBlock, Event.html "<table class=\"preamble\">\n"]
        ++ entries.map (fun kv =>
            Event.html ("<tr><th>" ++ kv.1 ++ "</td><td>"
              ++ (if kv.1 = "author" then linkify_text kv.2 else kv.2)
              ++ "</td></tr>\n"))
        ++ [Event.html "</table>\n", Event.endHtmlBlock] := rfl

/-- C4: The linkifier applies the GitHub-handle pass first and the
email pass over its result, and the two specimen inputs rewrite to the
specified anchors. -/
theorem linkify_text_spec :
    (∀ s : String, linkify_text s = emailReplaceAll (githubReplaceAll s))
    ∧ linkify_text "(@octocat)"
        = "(<a href=\"https://github.com/octocat\">@octocat</a>)"
    ∧ linkify_text "(me@example.com)"
        = "(<a href=\"mailto:me@example.com\">me@example.com</a>)" :=
  ⟨fun _ => rfl, by decide, by decide⟩

/-- C5: With an odd number of delimiter text events in the unit, every
event after the last, unmatched delimiter — and any text buffered after
it — is absent from the output: the output equals that of the unit
truncated at that delimiter. -/
theorem scanner_drops_after_unmatched (pre tail : List Event)
    (hpre : countD pre % 2 = 0) (htail : noDelim tail) :
    run_unit (pre ++ [Event.text frontmatter_delimiter] ++ tail)
      = run_unit (pre ++ [Event.text frontmatter_delimiter]) := by
  unfold run_unit
  rw [List.foldl_append]
  rcases hs : List.foldl scanStep ⟨false, [], []⟩
      (pre ++ [Event.text frontmatter_delimiter]) with ⟨c, fm, out⟩
  have hp := foldl_capture_parity
      (pre ++ [Event.text frontmatter_delimiter]) ⟨false, [], []⟩
  rw [hs] at hp
  simp [countD_append, countD] at hp
  have hcap : c = true := hp.mpr (by omega)
  subst hcap
  rw [foldl_capturing tail fm out htail]

/-- Witness for the data loss after an unmatched delimiter. -/
theorem scanner_drops_after_unmatched_check :
    countD [] % 2 = 0 ∧ noDelim [Event.text "lost", Event.other 3] ∧
    run_unit ([] ++ [Event.text frontmatter_delimiter]
        ++ [Event.text "lost", Event.other 3])
      = run_unit ([] ++ [Event.text frontmatter_delimiter]) :=
  ⟨by decide, by decide,
    scanner_drops_after_unmatched [] [Event.text "lost", Event.other 3]
      (by decide) (by decide)⟩

/-- C6 counterexample: the unit of two adjacent delimiter text events
has two input events but four output events (the empty table), so the
output is longer than the input. -/
theorem run_unit_length_exceeds_input :
    ¬ ((run_unit [Event.text frontmatter_delimiter,
          Event.text frontmatter_delimiter]).length
        ≤ ([Event.text frontmatter_delimiter,
          Event.text frontmatter_delimiter] : List Event).length) := by
  decide

/-- C6 amended: the output event count is at most the input event count
plus twice the number of delimiter text events (each closed region adds
the four fixed table events while consuming two delimiters). -/
theorem run_unit_length_bound (evs : List Event) :
    (run_unit evs).length ≤ evs.length + 2 * countD evs := by
  have h := foldl_measure evs ⟨false, [], []⟩
  have h0 : stateMeasure ⟨false, [], []⟩ = 0 := by simp [stateMeasure]
  have h2 : (List.foldl scanStep ⟨false, [], []⟩ evs).out.length
      ≤ stateMeasure (List.foldl scanStep ⟨false, [], []⟩ evs) := by
    unfold stateMeasure
    split <;> omega
  unfold run_unit
  omega

/-- C7: A unit without any delimiter text event passes through the
scanner unchanged, so re-serializing gives exactly the round-trip of
the original markup. -/
theorem run_unit_no_delim_roundtrip (evs : List Event) (h : noDelim evs) :
    run_unit evs = evs := by
  unfold run_unit
  rw [foldl_pass evs [] [] h]
  simp

/-- Witness for pass-through on a concrete delimiter-free unit. -/
theorem run_unit_no_delim_roundtrip_check :
    noDelim [Event.text "hello", Event.other 1, Event.html "<b>"] ∧
    run_unit [Event.text "hello", Event.other 1, Event.html "<b>"]
      = [Event.text "hello", Event.other 1, Event.html "<b>"] :=
  ⟨by decide, run_unit_no_delim_roundtrip _ (by decide)⟩

/-- C8: The transform is deterministic: the scanner is a pure function
of the unit event sequence, so identical inputs give identical
outputs. -/
theorem run_unit_deterministic (evs1 evs2 : List Event) (h : evs1 = evs2) :
    run_unit evs1 = run_unit evs2 := by rw [h]

/-- Witness for determinism at a concrete unit. -/
theorem run_unit_deterministic_check :
    ([Event.text "x"] : List Event) = [Event.text "x"] ∧
    run_unit [Event.text "x"] = run_unit [Event.text "x"] :=
  ⟨rfl, run_unit_deterministic [Event.text "x"] [Event.text "x"] rfl⟩

/-- C9: A line whose first colon sits at position zero still yields an
entry — the key is the empty string and the value the trimmed
remainder; the parser never requires a nonempty key. -/
theorem parse_frontmatter_empty_key (a : List Char) :
    parse_frontmatter [String.mk (':' :: a)] = [("", trimString (String.mk a))] := by
  have h := parseEntry_with_colon [] a (by simp)
  simp only [List.nil_append] at h
  have he : trimString (String.mk ([] : List Char)) = "" := by decide
  rw [he] at h
  simp [parse_frontmatter, h]

/-- C10: A region whose captured lines yield no entries still splices
the four fixed empty-table events into the output at the closing
delimiter. -/
theorem scanner_empty_table (pre body post : List Event)
    (hpre : noDelim pre) (hbody : noDelim body)
    (hempty : parse_frontmatter (capturedTexts body) = []) :
    run_unit (pre ++ [Event.text frontmatter_delimiter] ++ body
        ++ [Event.text frontmatter_delimiter] ++ post)
      = pre ++ [Event.startHtmlBlock, Event.html "<table class=\"preamble\">\n",
          Event.html "</table>\n", Event.endHtmlBlock] ++ run_unit post := by
  rw [run_unit_region pre body post hpre hbody, hempty]
  rfl

/-- Witness for the empty table at a concrete region of two immediately
adjacent delimiters preceded by nothing and one colon-free line region. -/
theorem scanner_empty_table_check :
    noDelim ([] : List Event) ∧ noDelim [Event.text "no colon here"] ∧
    parse_frontmatter (capturedTexts [Event.text "no colon here"]) = [] ∧
    run_unit ([] ++ [Event.text frontmatter_delimiter]
        ++ [Event.text "no colon here"] ++ [Event.text frontmatter_delimiter]
        ++ [Event.other 2])
      = [] ++ [Event.startHtmlBlock, Event.html "<table class=\"preamble\">\n",
          Event.html "</table>\n", Event.endHtmlBlock] ++ run_unit [Event.other 2] :=
  ⟨by decide, by decide, by decide,
    scanner_empty_table [] [Event.text "no colon here"] [Event.other 2]
      (by decide) (by decide) (by decide)⟩
